import Mathlib

/-!
Verification of the metadata normalization and cross-validation engine of the
sleuthkit unit-test suite (`unittests/textparser.py`, `unittests/test_btrfs.py`).

Raw tool output is modelled at the granularity of decoded text lines: a byte
stream consumed through `.decode('utf-8')` followed by `.splitlines()` is
represented as a `List (List Char)` (one `List Char` per line).  Python string
primitives used by the code (`split`, `count`, `find`, `int()`, slicing,
`os.path.relpath`) are embedded as executable functions on `List Char` below.
Python exceptions (IndexError, ValueError, TypeError, AttributeError, KeyError)
are modelled with `Except` and the `Err` type: an `Except.error` result means
the corresponding Python code raises and the enclosing test aborts.
-/

deriving instance DecidableEq for Except

namespace TP

/-- Python exceptions that the modelled code can raise.  `parseError` and
`valueError` both model Python `ValueError` (`parseError` for a failed
`int(...)` conversion, `valueError` for `os.path.relpath` on an empty path);
`keyError` carries the missing dictionary key, as Python `KeyError` does. -/
inductive Err where
  | indexError : Err
  | parseError : Err
  | valueError : Err
  | typeError : Err
  | attrError : Err
  | keyError : Int → Err
deriving DecidableEq

/-- A parsed field: the `try: int(i) except ValueError: i` pattern of
`textparser.py` yields either an integer or the raw text. -/
inductive Field where
  | int : Int → Field
  | text : List Char → Field
deriving DecidableEq

/-- Python `l[i]` for a non-negative index: the element, or IndexError. -/
def pyIdx (l : List α) (i : Nat) : Except Err α :=
  if h : i < l.length then .ok l[i] else .error .indexError

/-- Sequencing of fallible steps (exception propagation). -/
def exBind (x : Except Err α) (f : α → Except Err β) : Except Err β :=
  match x with
  | .error e => .error e
  | .ok a => f a

@[simp] theorem exBind_ok (a : α) (f : α → Except Err β) : exBind (.ok a) f = f a := rfl

@[simp] theorem exBind_error (e : Err) (f : α → Except Err β) :
    exBind (.error e) f = .error e := rfl

@[simp] theorem exMap_ok (f : α → β) (a : α) :
    (Except.ok a : Except Err α).map f = .ok (f a) := rfl

@[simp] theorem exMap_error (f : α → β) (e : Err) :
    (Except.error e : Except Err α).map f = .error e := rfl

/-- Case split on an optional value inside fallible code. -/
def optElim (o : Option α) (dflt : Except Err β) (f : α → Except Err β) : Except Err β :=
  match o with
  | none => dflt
  | some a => f a

@[simp] theorem optElim_none (dflt : Except Err β) (f : α → Except Err β) :
    optElim none dflt f = dflt := rfl

@[simp] theorem optElim_some (a : α) (dflt : Except Err β) (f : α → Except Err β) :
    optElim (some a) dflt f = f a := rfl

/-- Case split on a parsed field (Python dynamic typing: the operation applied
depends on whether the field holds an integer or text). -/
def fieldElim (f : Field) (fInt : Int → β) (fText : List Char → β) : β :=
  match f with
  | .int n => fInt n
  | .text s => fText s

@[simp] theorem fieldElim_int (n : Int) (fInt : Int → β) (fText : List Char → β) :
    fieldElim (.int n) fInt fText = fInt n := rfl

@[simp] theorem fieldElim_text (s : List Char) (fInt : Int → β) (fText : List Char → β) :
    fieldElim (.text s) fInt fText = fText s := rfl

/-- Split a character list at every occurrence of the separator, Python
`str.split(sep)` for a one-character separator: always at least one part,
empty parts preserved. -/
def splitOnCh (sep : Char) : List Char → List (List Char)
  | [] => [[]]
  | c :: cs =>
    if c = sep then [] :: splitOnCh sep cs
    else
      match splitOnCh sep cs with
      | [] => [[c]]
      | f :: r => (c :: f) :: r

/-- Join parts with a one-character separator, Python `sep.join(parts)`. -/
def joinCh (sep : Char) : List (List Char) → List Char
  | [] => []
  | [p] => p
  | p :: ps => p ++ sep :: joinCh sep ps

/-- Worker for `pyCount`: the scan consumes at least one character per step,
so a fuel of `s.length` suffices; the fuel argument only makes the recursion
structural. -/
def pyCountAux (pat : List Char) : Nat → List Char → Nat
  | _, [] => if pat = [] then 1 else 0
  | 0, _ :: _ => 0
  | fuel + 1, c :: cs =>
    if pat <+: (c :: cs) then 1 + pyCountAux pat fuel (cs.drop (pat.length - 1))
    else pyCountAux pat fuel cs

/-- Python `s.count(pat)`: number of non-overlapping occurrences, scanning
from the left. -/
def pyCount (pat s : List Char) : Nat := pyCountAux pat s.length s

/-- Python `s.find(pat)`: index of the first occurrence, `none` for `-1`. -/
def pyFind (pat : List Char) : List Char → Option Nat
  | [] => if pat = [] then some 0 else none
  | c :: cs =>
    if pat <+: (c :: cs) then some 0
    else (pyFind pat cs).map (· + 1)

def isDigitCh (c : Char) : Bool := '0' ≤ c ∧ c ≤ '9'

/-- Python `str.isdigit()` (ASCII model): non-empty and all digits. -/
def pyIsDigit (s : List Char) : Bool := s ≠ [] ∧ s.all isDigitCh

def digitVal (c : Char) : Nat := c.toNat - '0'.toNat

def digitsVal (ds : List Char) : Nat := ds.foldl (fun a c => 10 * a + digitVal c) 0

def isSpaceCh (c : Char) : Bool :=
  c = ' ' ∨ c = '\t' ∨ c = '\n' ∨ c = '\r' ∨ c = '\x0b' ∨ c = '\x0c'

/-- Python `int(s)` (ASCII model): surrounding whitespace stripped, optional
sign, then a non-empty run of digits; `none` models `ValueError`. -/
def pyInt? (s : List Char) : Option Int :=
  let t := (s.dropWhile isSpaceCh).reverse.dropWhile isSpaceCh |>.reverse
  match t with
  | '-' :: ds => if pyIsDigit ds then some (-(digitsVal ds : Int)) else none
  | '+' :: ds => if pyIsDigit ds then some (digitsVal ds : Int) else none
  | ds => if pyIsDigit ds then some (digitsVal ds : Int) else none

/-- `int(s)` as an `Except`: a failed conversion raises `ValueError`. -/
def pyIntE (s : List Char) : Except Err Int :=
  match pyInt? s with
  | some n => .ok n
  | none => .error .parseError

/-- The try/except int-or-string conversion applied to every field. -/
def pyIntOrText (s : List Char) : Field :=
  match pyInt? s with
  | some n => .int n
  | none => .text s

/-- Worker for `natDigits`: division by ten needs at most `n` steps, so a
fuel of `n + 1` suffices; the fuel argument only makes the recursion
structural. -/
def natDigitsAux : Nat → Nat → List Char
  | 0, _ => []
  | fuel + 1, n =>
    if n < 10 then [Char.ofNat (48 + n)]
    else natDigitsAux fuel (n / 10) ++ [Char.ofNat (48 + n % 10)]

/-- Decimal digits of a natural number. -/
def natDigits (n : Nat) : List Char := natDigitsAux (n + 1) n

/-- Python `str(k)` for an integer `k`; this is also the message a raised
`KeyError(k)` displays. -/
def intStr (k : Int) : List Char :=
  if k < 0 then '-' :: natDigits k.natAbs else natDigits k.natAbs

/-! ### Model of the `posixpath` functions used by the code

`textparser.parse_stat` and `test_btrfs.test_filedata` call `os.path.relpath`
and `os.path.join`.  `posixpath.relpath(path, start)` takes `abspath` of both
arguments (which consults the process working directory `cwd` when an argument
is not absolute), splits them into their non-empty, non-`.` components with
`..` resolved, removes the common prefix and prepends one `..` per remaining
`start` component.  `cwd` is carried as an explicit parameter (an absolute
directory path). -/

def isAbs (p : List Char) : Bool := p.head? = some '/'

/-- `posixpath.join(a, b)` for the cases the code exercises (one argument). -/
def pyJoin (a b : List Char) : List Char :=
  if isAbs b then b
  else if a = [] then b
  else if a.getLast? = some '/' then a ++ b
  else a ++ '/' :: b

/-- A path component that `normpath`/`relpath` keep: non-empty and not `.`. -/
def keepComp (c : List Char) : Bool := c ≠ [] ∧ c ≠ ['.']

/-- Resolve `..` components of an absolute path the way `posixpath.normpath`
does: a `..` pops the previous component (or disappears at the root). -/
def resolveDots (comps : List (List Char)) : List (List Char) :=
  go [] comps
where
  go (acc : List (List Char)) : List (List Char) → List (List Char)
    | [] => acc
    | c :: cs => if c = ['.', '.'] then go acc.dropLast cs else go (acc ++ [c]) cs

/-- Components of `posixpath.abspath(p)` under working directory `cwd`. -/
def absComps (cwd p : List Char) : List (List Char) :=
  resolveDots (((splitOnCh '/' (if isAbs p then p else pyJoin cwd p)).filter keepComp))

/-- Length of the element-wise common prefix of two lists,
`len(os.path.commonprefix([a, b]))` on component lists. -/
def commonPrefixLen : List (List Char) → List (List Char) → Nat
  | a :: as, b :: bs => if a = b then 1 + commonPrefixLen as bs else 0
  | _, _ => 0

/-- The component list of `posixpath.relpath(p, start)`. -/
def relComps (cwd p start : List Char) : List (List Char) :=
  let pl := absComps cwd p
  let sl := absComps cwd start
  let i := commonPrefixLen sl pl
  List.replicate (sl.length - i) ['.', '.'] ++ pl.drop i

/-- `posixpath.relpath(p, start)`: raises `ValueError` on an empty path,
returns `.` when the relative component list is empty. -/
def pyRelpath (cwd p start : List Char) : Except Err (List Char) :=
  if p = [] then .error .valueError
  else
    match relComps cwd p start with
    | [] => .ok ['.']
    | r => .ok (joinCh '/' r)

/-! ### The parsers of `textparser.py` -/

/-- The two normalization switches of `TextParser.__init__`. -/
structure Cfg where
  ignore_ext_backup : Bool
  fix_subvols : Bool

def snapshotT : List Char := "snapshot".toList
def subvolumeT : List Char := "subvolume".toList
def extBackupT : List Char := "ext2_saved".toList
def arrowT : List Char := " -> ".toList

/-- The symlink name fixup of `parse_fls_files`: `end = line[1].find(' -> ')`
then `line[1][1:end]`; a missing arrow makes `end = -1`, so the slice drops
the final character of the name as well as the leading type tag. -/
def flsLinkName (s : List Char) : List Char :=
  match pyFind arrowT s with
  | some e => (s.drop 1).take (e - 1)
  | none => (s.drop 1).dropLast

/-- One iteration of the `parse_fls_files` loop on an already-split line:
`.ok none` models `continue`/filtered, `.ok (some entry)` an appended entry,
`.error` a raised exception. -/
def processFlsLine (cfg : Cfg) (l : List Char) : Except Err (Option (List Char × Int)) :=
  let f := splitOnCh '|' l
  if 1 < f.length then
    let f1 := f.getD 1 []
    exBind (pyIdx f1 1) fun c =>
      if c = '$' then .ok none
      else if cfg.fix_subvols = true ∧ snapshotT <:+: f1 ∧ 0 < pyCount subvolumeT f1 then
        .ok none
      else if cfg.ignore_ext_backup = true ∧ extBackupT <:+: f1 then .ok none
      else
        exBind (pyIdx f 3) fun f3 =>
          exBind (pyIdx f3 0) fun c3 =>
            let name := if c3 = 'l' then flsLinkName f1 else f1.drop 1
            exBind (pyIdx f 2) fun f2 =>
              exBind (pyIntE f2) fun ino => .ok (some (name, ino))
  else .ok none

/-- `TextParser.parse_fls_files`, over the decoded lines of the raw input. -/
def parse_fls_files (cfg : Cfg) : List (List Char) → Except Err (List (List Char × Int))
  | [] => .ok []
  | l :: ls =>
    exBind (processFlsLine cfg l) fun o =>
      optElim o (parse_fls_files cfg ls) fun ent => (parse_fls_files cfg ls).map (ent :: ·)

/-- One iteration of the `parse_ils` loop: the line is accepted when its first
field is a digit string other than `'0'` and its ninth field is not `'0'`;
fewer than nine fields then raise IndexError. -/
def processIlsLine (l : List Char) : Except Err (Option (Field × List Field)) :=
  let f := splitOnCh '|' l
  let f0 := f.headD []
  if pyIsDigit f0 = true ∧ f0 ≠ ['0'] then
    exBind (pyIdx f 8) fun f8 =>
      if f8 = ['0'] then .ok none
      else
        let intline := f.map pyIntOrText
        .ok (some (intline.headD (.int 0), intline.drop 1))
  else .ok none

/-- Python `d[k] = v` on an association list representing `dict`: replace the
value at the first occurrence of the key, else append. -/
def dictInsert (k : Field) (v : List Field) : List (Field × List Field) → List (Field × List Field)
  | [] => [(k, v)]
  | (k', v') :: d => if k' = k then (k', v) :: d else (k', v') :: dictInsert k v d

/-- Python `d[k]` as an option. -/
def dictLookup (k : Field) : List (Field × List Field) → Option (List Field)
  | [] => none
  | (k', v) :: d => if k' = k then some v else dictLookup k d

def parse_ils_go (d : List (Field × List Field)) :
    List (List Char) → Except Err (List (Field × List Field))
  | [] => .ok d
  | l :: ls =>
    exBind (processIlsLine l) fun o =>
      optElim o (parse_ils_go d ls) fun kv => parse_ils_go (dictInsert kv.1 kv.2 d) ls

/-- `TextParser.parse_ils`, over the decoded lines of the raw input; the
resulting `dict` is an association list in insertion order. -/
def parse_ils (lines : List (List Char)) : Except Err (List (Field × List Field)) :=
  parse_ils_go [] lines

/-- The filter-and-convert phase of `parse_stat` on one line (this phase is
total; `none` models a `continue`). -/
def statLineRow (cfg : Cfg) (l : List Char) : Option (List Field) :=
  let f := splitOnCh '|' l
  let f0 := f.headD []
  if cfg.fix_subvols = true ∧ snapshotT <:+: f0 ∧ 0 < pyCount subvolumeT f0 then none
  else if cfg.ignore_ext_backup = true ∧ extBackupT <:+: f0 then none
  else some (f.map pyIntOrText)

/-- The relative-path rewriting phase of `parse_stat`:
`line[0] = os.path.relpath(line[0], mpath)`.  A first field converted to an
integer raises `TypeError` inside `os.fspath`. -/
def relpathRow (cwd m : List Char) (row : List Field) : Except Err (List Field) :=
  match row with
  | [] => .error .indexError
  | f0 :: rest =>
    fieldElim f0 (fun _ => .error .typeError)
      (fun s => (pyRelpath cwd s m).map (fun r => .text r :: rest))

/-- The `for line in inodes: line[0] = os.path.relpath(...)` loop: rewrite
every row in order, propagating the first exception. -/
def relpathRows (cwd m : List Char) : List (List Field) → Except Err (List (List Field))
  | [] => .ok []
  | row :: rs =>
    exBind (relpathRow cwd m row) fun row' => (relpathRows cwd m rs).map (row' :: ·)

/-- `TextParser.parse_stat`, over the decoded lines of the raw input.  `mpath`
is the mount-path argument (`none` models Python `None`); `cwd` is the working
directory consulted by `os.path.relpath` for non-absolute fields. -/
def parse_stat (cfg : Cfg) (lines : List (List Char)) (mpath : Option (List Char))
    (cwd : List Char) : Except Err (List (List Field)) :=
  let rows := lines.filterMap (statLineRow cfg)
  match mpath with
  | none => .ok rows
  | some m => relpathRows cwd m rows

/-! ### The comparison steps of `test_btrfs.py` -/

/-- The merge loop of `TestBtrfs.setUpClassCustom`:
`line.extend(tsk_inodes[line[1]])` joins each `(path, inode)` entry of the
file listing with the inode-listing dictionary; a missing inode key raises
`KeyError(inode)`. -/
def mergeTsk (inodes : List (Field × List Field)) :
    List (List Char × Int) → Except Err (List (List Char × Int × List Field))
  | [] => .ok []
  | (p, i) :: fs =>
    optElim (dictLookup (.int i) inodes) (.error (.keyError i)) fun t =>
      (mergeTsk inodes fs).map (fun r => (p, i, t) :: r)

/-- Parsing of a captured `istat` output buffer in
`TestBtrfs.test_metadata_inode`: `istat.splitlines()`, take line index 2
(the third line), split it on spaces and convert field index 2 (the third
field) with `int`.  The buffer is modelled as its decoded lines. -/
def istatInode (buf : List (List Char)) : Except Err Int :=
  exBind (pyIdx buf 2) fun l2 =>
    exBind (pyIdx (splitOnCh ' ' l2) 2) fun f2 => pyIntE f2

/-- The forensic-side loop of `test_metadata_inode`: for every merged record
`(path, inode, ...)` the captured `istat` output for that inode (given by
`out`, covering both success and the `CalledProcessError` fallback to
`e.output`) is parsed with `istatInode` and `(path, parsed)` is collected.
An exception while parsing propagates out of the test method. -/
def inodeCheckTsk (out : Int → List (List Char)) :
    List (List Char × Int) → Except Err (List (List Char × Int))
  | [] => .ok []
  | (p, n) :: rs =>
    exBind (istatInode (out n)) fun v => (inodeCheckTsk out rs).map ((p, v) :: ·)

/-- Last path component carrying a pseudo-entry tag, from
`test_metadata_size`: `last = line[0].split('/')[-1]` and the check
`"directory" in last or "subvolume" in last or "snapshot" in last`. -/
def taggedLast (p : List Char) : Prop :=
  let last := (splitOnCh '/' p).getLastD []
  "directory".toList <:+: last ∨ subvolumeT <:+: last ∨ snapshotT <:+: last

instance (p : List Char) : Decidable (taggedLast p) := by
  unfold taggedLast; exact inferInstance

/-- One OS-derived pair of `test_metadata_size`: `value = line[11]`, the
`fix_size` override to `0` when the last path component is tagged, then
`(line[0], value)`.  A non-string first field makes `split` raise
`AttributeError`; a row shorter than 12 raises IndexError. -/
def sizePairStat (fix_size : Bool) (row : List Field) : Except Err (Field × Field) :=
  exBind (pyIdx row 11) fun v =>
    if fix_size then
      exBind (pyIdx row 0) fun f0 =>
        fieldElim f0 (fun _ => .error .attrError)
          (fun p => .ok (.text p, if taggedLast p then Field.int 0 else v))
    else
      exBind (pyIdx row 0) fun f0 => .ok (f0, v)

/-- One forensic-side pair of `test_metadata_size`: `(line[0], line[11])`,
with no size override. -/
def sizePairTsk (row : List Field) : Except Err (Field × Field) :=
  exBind (pyIdx row 0) fun f0 =>
    exBind (pyIdx row 11) fun v => .ok (f0, v)

/-- The OS-derived size collection of `test_metadata_size`. -/
def sizeCheckStat (fix_size : Bool) : List (List Field) → Except Err (List (Field × Field))
  | [] => .ok []
  | row :: rs =>
    exBind (sizePairStat fix_size row) fun p => (sizeCheckStat fix_size rs).map (p :: ·)

/-- The forensic-derived size collection of `test_metadata_size`. -/
def sizeCheckTsk : List (List Field) → Except Err (List (Field × Field))
  | [] => .ok []
  | row :: rs =>
    exBind (sizePairTsk row) fun p => (sizeCheckTsk rs).map (p :: ·)

/-- The manifest-reading loop of `TestBtrfs.test_filedata`.  The input is the
list of lines as `readline` returns them (each including its trailing
newline; the end of the list is end-of-file, where `readline` yields `""`).
Reading stops at EOF or at a line starting with `-`; each kept line is
stripped of its last character, split on single spaces, and contributes
`(name-after-first-space-field, first-field)`. -/
def parseManifest : List (List Char) → List (List Char × List Char)
  | [] => []
  | line :: rest =>
    if line.headD '-' = '-' then []
    else
      let fs := splitOnCh ' ' line.dropLast
      (joinCh ' ' (fs.drop 1), fs.headD []) :: parseManifest rest

/-- One entry of the recovered-tree walk of `test_filedata`.  A walk entry is
`(root, fname, hash)`: the directory handed out by `os.walk`, one file name in
it, and the md5 digest that `ImageFactory.md5sum` computes for it (file
hashing is outside the parsing core and is carried as data).  Filtering
mirrors the source: names starting with `$`, then the snapshot/subvolume and
`ext2_saved` filters applied to the joined path. -/
def recoveredEntry (cfg : Cfg) (cwd recdir : List Char)
    (e : List Char × List Char × List Char) : Except Err (Option (List Char × List Char)) :=
  let (root, fname, h) := e
  if fname.headD ' ' = '$' then .ok none
  else
    let fpath := pyJoin root fname
    if cfg.fix_subvols = true ∧ snapshotT <:+: fpath ∧ 0 < pyCount subvolumeT fpath then
      .ok none
    else if cfg.ignore_ext_backup = true ∧ extBackupT <:+: fpath then .ok none
    else (pyRelpath cwd fpath recdir).map (fun r => some (r, h))

/-- The recovered-tree set of `test_filedata` over a list of walk entries. -/
def recoveredSet (cfg : Cfg) (cwd recdir : List Char) :
    List (List Char × List Char × List Char) → Except Err (List (List Char × List Char))
  | [] => .ok []
  | e :: es =>
    exBind (recoveredEntry cfg cwd recdir e) fun o =>
      optElim o (recoveredSet cfg cwd recdir es) fun p =>
        (recoveredSet cfg cwd recdir es).map (p :: ·)

/-- Python set equality of two collections (`assertEqual` on `set`s): the same
elements regardless of multiplicity and order. -/
def seteq (A B : List (List Char × List Char)) : Bool :=
  A.all (fun x => decide (x ∈ B)) && B.all (fun x => decide (x ∈ A))

/-! ### Predicates used to state the claims -/

/-- A raw line that passes every filter of `parse_fls_files`: at least two
pipe-separated fields, a name whose character after the type tag exists and
is not `$`, and survival of the snapshot/subvolume and `ext2_saved` filters. -/
def passesFlsFilters (cfg : Cfg) (l : List Char) : Prop :=
  let f := splitOnCh '|' l
  let f1 := f.getD 1 []
  1 < f.length ∧ 1 < f1.length ∧ ¬ f1[1]? = some '$' ∧
  ¬ (cfg.fix_subvols = true ∧ snapshotT <:+: f1 ∧ 0 < pyCount subvolumeT f1) ∧
  ¬ (cfg.ignore_ext_backup = true ∧ extBackupT <:+: f1)

instance (cfg : Cfg) (l : List Char) : Decidable (passesFlsFilters cfg l) := by
  unfold passesFlsFilters; exact inferInstance

/-- The key/value pair an accepted `ils` line contributes: the same
acceptance condition as `processIlsLine`, with the in-bounds access of the
ninth field made explicit. -/
def ilsAccepted (l : List Char) : Option (Field × List Field) :=
  let f := splitOnCh '|' l
  let f0 := f.headD []
  if pyIsDigit f0 = true ∧ f0 ≠ ['0'] ∧ 8 < f.length ∧ f.getD 8 [] ≠ ['0'] then
    some ((f.map pyIntOrText).headD (.int 0), (f.map pyIntOrText).drop 1)
  else none

/-- The value attached to the last occurrence of a key in an association
list, if any. -/
def lastAssoc (k : Field) : List (Field × List Field) → Option (List Field)
  | [] => none
  | (k', v) :: rest =>
    match lastAssoc k rest with
    | some r => some r
    | none => if k' = k then some v else none

/-! ### Generic lemmas about the embedded string primitives -/

theorem pyIdx_ok_iff {l : List α} {i : Nat} {x : α} :
    pyIdx l i = .ok x ↔ l[i]? = some x := by
  unfold pyIdx
  split
  · rename_i h
    rw [List.getElem?_eq_getElem h]
    constructor
    · intro he; cases he; rfl
    · intro he; cases he; rfl
  · rename_i h
    rw [List.getElem?_eq_none (by omega)]
    constructor
    · intro he; cases he
    · intro he; cases he

theorem pyIdx_error_iff {l : List α} {i : Nat} :
    pyIdx l i = .error .indexError ↔ l.length ≤ i := by
  unfold pyIdx
  split
  · rename_i h
    constructor
    · intro he; cases he
    · intro he; omega
  · rename_i h
    exact ⟨fun _ => by omega, fun _ => rfl⟩

theorem splitOnCh_spec (sep : Char) (l : List Char) :
    (∃ f r, splitOnCh sep l = f :: r ∧ f <+: l) ∧ ∀ x ∈ splitOnCh sep l, x <:+: l := by
  induction l with
  | nil =>
    refine ⟨⟨[], [], rfl, List.nil_prefix⟩, ?_⟩
    intro x hx
    simp only [splitOnCh, List.mem_singleton] at hx
    simp [hx]
  | cons c cs ih =>
    obtain ⟨⟨f, r, hfr, hpre⟩, hmem⟩ := ih
    by_cases hc : c = sep
    · have hsplit : splitOnCh sep (c :: cs) = [] :: splitOnCh sep cs := by
        simp [splitOnCh, hc]
      refine ⟨⟨[], splitOnCh sep cs, hsplit, List.nil_prefix⟩, ?_⟩
      intro x hx
      rw [hsplit, List.mem_cons] at hx
      rcases hx with h1 | h2
      · simp [h1]
      · exact (hmem x h2).trans (List.suffix_cons c cs).isInfix
    · have hsplit : splitOnCh sep (c :: cs) = (c :: f) :: r := by
        simp [splitOnCh, hc, hfr]
      refine ⟨⟨c :: f, r, hsplit, List.cons_prefix_cons.mpr ⟨rfl, hpre⟩⟩, ?_⟩
      intro x hx
      rw [hsplit, List.mem_cons] at hx
      rcases hx with h1 | h2
      · subst h1
        obtain ⟨t, ht⟩ := hpre
        exact ⟨[], t, by simp [← ht]⟩
      · have hx' : x ∈ splitOnCh sep cs := by
          rw [hfr]; exact List.mem_cons_of_mem f h2
        exact (hmem x hx').trans (List.suffix_cons c cs).isInfix

theorem mem_splitOnCh_within {sep : Char} {l x : List Char}
    (h : x ∈ splitOnCh sep l) : x <:+: l :=
  (splitOnCh_spec sep l).2 x h

theorem sliceCut {sep : Char} {pat t xs ys : List Char}
    (h : pat ++ t = xs ++ sep :: ys) (hs : sep ∉ pat) : pat <+: xs := by
  induction pat generalizing xs with
  | nil => exact List.nil_prefix
  | cons p ps ih =>
    cases xs with
    | nil =>
      simp only [List.nil_append, List.cons_append, List.cons.injEq] at h
      exact absurd (h.1 ▸ List.mem_cons_self p ps) hs
    | cons x xs' =>
      simp only [List.cons_append, List.cons.injEq] at h
      have := ih (h.2) (fun hm => hs (List.mem_cons_of_mem p hm))
      exact List.cons_prefix_cons.mpr ⟨h.1, this⟩

theorem withinAppendSep {sep : Char} {pat xs ys : List Char}
    (h : pat <:+: xs ++ sep :: ys) (hs : sep ∉ pat) : pat <:+: xs ∨ pat <:+: ys := by
  obtain ⟨s, t, hst⟩ := h
  induction xs generalizing s with
  | nil =>
    cases s with
    | nil =>
      cases pat with
      | nil => exact Or.inl (List.nil_infix)
      | cons p ps =>
        simp only [List.nil_append, List.cons_append, List.cons.injEq] at hst
        exact absurd (hst.1 ▸ List.mem_cons_self p ps) hs
    | cons a s' =>
      simp only [List.cons_append, List.nil_append, List.cons.injEq] at hst
      exact Or.inr ⟨s', t, hst.2⟩
  | cons x xs' ih =>
    cases s with
    | nil =>
      cases pat with
      | nil => exact Or.inl (List.nil_infix)
      | cons p ps =>
        simp only [List.nil_append, List.cons_append, List.cons.injEq] at hst
        have : ps <+: xs' := sliceCut hst.2 (fun hm => hs (List.mem_cons_of_mem p hm))
        exact Or.inl (List.cons_prefix_cons.mpr ⟨hst.1, this⟩).isInfix
    | cons a s' =>
      simp only [List.cons_append, List.cons.injEq] at hst
      rcases ih s' hst.2 with h1 | h2
      · exact Or.inl (h1.trans (List.suffix_cons x xs').isInfix)
      · exact Or.inr h2

theorem withinJoin {sep : Char} {pat : List Char} {comps : List (List Char)}
    (hne : pat ≠ []) (hs : sep ∉ pat) (h : pat <:+: joinCh sep comps) :
    ∃ c ∈ comps, pat <:+: c := by
  induction comps with
  | nil =>
    simp only [joinCh, List.infix_nil] at h
    exact absurd h hne
  | cons c cs ih =>
    cases cs with
    | nil => exact ⟨c, List.mem_singleton.mpr rfl, h⟩
    | cons c2 cs' =>
      have hj : joinCh sep (c :: c2 :: cs') = c ++ sep :: joinCh sep (c2 :: cs') := rfl
      rw [hj] at h
      rcases withinAppendSep h hs with h1 | h2
      · exact ⟨c, List.mem_cons_self c _, h1⟩
      · obtain ⟨d, hd, hpd⟩ := ih h2
        exact ⟨d, List.mem_cons_of_mem c hd, hpd⟩

theorem pyCountAux_pos {pat : List Char} : ∀ {fuel : Nat} {s : List Char},
    s.length ≤ fuel → (0 < pyCountAux pat fuel s ↔ pat <:+: s) := by
  intro fuel
  induction fuel with
  | zero =>
    intro s hs
    have : s = [] := List.length_eq_zero.mp (by omega)
    subst this
    by_cases hp : pat = []
    · simp [pyCountAux, hp]
    · simp [pyCountAux, hp, List.infix_nil]
  | succ fuel ih =>
    intro s hs
    cases s with
    | nil =>
      by_cases hp : pat = []
      · simp [pyCountAux, hp]
      · simp [pyCountAux, hp, List.infix_nil]
    | cons c cs =>
      simp only [pyCountAux]
      by_cases hpre : pat <+: c :: cs
      · simp only [if_pos hpre]
        exact ⟨fun _ => hpre.isInfix, fun _ => by omega⟩
      · simp only [if_neg hpre]
        have hlen : cs.length ≤ fuel := by
          simp only [List.length_cons] at hs; omega
        rw [ih hlen, List.infix_cons_iff]
        constructor
        · exact Or.inr
        · rintro (h1 | h2)
          · exact absurd h1 hpre
          · exact h2

theorem pyCount_pos {pat s : List Char} : 0 < pyCount pat s ↔ pat <:+: s :=
  pyCountAux_pos (Nat.le_refl _)

theorem mem_resolveDots_go {x : List Char} :
    ∀ {comps acc : List (List Char)}, x ∈ resolveDots.go acc comps → x ∈ acc ∨ x ∈ comps := by
  intro comps
  induction comps with
  | nil => intro acc h; exact Or.inl h
  | cons c cs ih =>
    intro acc h
    simp only [resolveDots.go] at h
    split at h
    · rcases ih h with h1 | h2
      · exact Or.inl (List.mem_of_mem_dropLast h1)
      · exact Or.inr (List.mem_cons_of_mem c h2)
    · rcases ih h with h1 | h2
      · rw [List.mem_append, List.mem_singleton] at h1
        rcases h1 with h1a | h1b
        · exact Or.inl h1a
        · exact Or.inr (h1b ▸ List.mem_cons_self c cs)
      · exact Or.inr (List.mem_cons_of_mem c h2)

theorem mem_resolveDots {x : List Char} {comps : List (List Char)}
    (h : x ∈ resolveDots comps) : x ∈ comps := by
  rcases mem_resolveDots_go h with h1 | h2
  · simp at h1
  · exact h2

theorem mem_absComps_abs {cwd p x : List Char} (hp : isAbs p = true)
    (h : x ∈ absComps cwd p) : x <:+: p := by
  unfold absComps at h
  rw [if_pos hp] at h
  exact mem_splitOnCh_within (List.mem_of_mem_filter (mem_resolveDots h))

theorem mem_relComps {cwd p start x : List Char} (hp : isAbs p = true)
    (h : x ∈ relComps cwd p start) : x = ['.', '.'] ∨ x <:+: p := by
  unfold relComps at h
  rw [List.mem_append] at h
  rcases h with h1 | h2
  · exact Or.inl (List.eq_of_mem_replicate h1)
  · exact Or.inr (mem_absComps_abs hp (List.mem_of_mem_drop h2))

/-- Anything `os.path.relpath` returns for an absolute path is built from
`..` markers and components of the path itself: a separator-free pattern of
length above two occurring in the result already occurs in the path. -/
theorem relpath_within {cwd p start r pat : List Char} (hp : isAbs p = true)
    (h : pyRelpath cwd p start = .ok r) (hl : 2 < pat.length)
    (hs : '/' ∉ pat) (hr : pat <:+: r) : pat <:+: p := by
  unfold pyRelpath at h
  split at h
  · cases h
  · split at h
    · cases h
      have := hr.length_le
      simp at this; omega
    · cases h
      have hne : pat ≠ [] := by
        intro hx; rw [hx] at hl; simp at hl
      obtain ⟨c, hc, hpc⟩ := withinJoin hne hs hr
      rcases mem_relComps hp hc with h1 | h2
      · have := hpc.length_le
        rw [h1] at this; simp at this; omega
      · exact hpc.trans h2

theorem pre_head? {p s : List α} (h : p <+: s) :
    p.head? = none ∨ p.head? = s.head? := by
  cases p with
  | nil => exact Or.inl rfl
  | cons a p' =>
    obtain ⟨t, ht⟩ := h
    cases s with
    | nil => cases ht
    | cons b s' =>
      simp only [List.cons_append, List.cons.injEq] at ht
      exact Or.inr (by simp [ht.1])

theorem flsLinkName_pre (s : List Char) : flsLinkName s <+: s.drop 1 := by
  unfold flsLinkName
  split
  · exact List.take_prefix _ _
  · exact List.dropLast_prefix _

/-! ### C1: no `$`-prefixed name survives `parse_fls_files` -/

theorem processFlsLine_no_dollar {cfg : Cfg} {l name : List Char} {ino : Int}
    (h : processFlsLine cfg l = .ok (some (name, ino))) : name.head? ≠ some '$' := by
  simp only [processFlsLine] at h
  split at h
  rotate_left
  · cases h
  · generalize hf1 : (splitOnCh '|' l).getD 1 [] = f1 at h
    rcases hidx : pyIdx f1 1 with e | c
    · simp [hidx] at h
    · simp only [hidx, exBind_ok] at h
      rw [pyIdx_ok_iff] at hidx
      split at h
      · cases h
      · rename_i hc
        split at h
        · cases h
        · split at h
          · cases h
          · rcases h3 : pyIdx (splitOnCh '|' l) 3 with e | f3
            · simp [h3] at h
            · simp only [h3, exBind_ok] at h
              rcases h30 : pyIdx f3 0 with e | c3
              · simp [h30] at h
              · simp only [h30, exBind_ok] at h
                rcases h2 : pyIdx (splitOnCh '|' l) 2 with e | f2
                · simp [h2] at h
                · simp only [h2, exBind_ok] at h
                  rcases hint : pyIntE f2 with e | ino'
                  · simp [hint] at h
                  · simp only [hint, exBind_ok] at h
                    rw [Except.ok.injEq, Option.some.injEq, Prod.mk.injEq] at h
                    obtain ⟨hname, -⟩ := h
                    rw [← hname]
                    by_cases hc3 : c3 = 'l'
                    · rw [if_pos hc3]
                      rcases pre_head? (flsLinkName_pre f1) with h1 | h1
                      · rw [h1]; simp
                      · rw [h1, List.head?_drop, hidx]
                        simp only [ne_eq, Option.some.injEq]
                        exact hc
                    · rw [if_neg hc3, List.head?_drop, hidx]
                      simp only [ne_eq, Option.some.injEq]
                      exact hc

/-- C1: For every raw file-listing input on which `parse_fls_files` succeeds,
no returned entry's path begins with the forensic metadata marker `$`: a line
whose name field starts with `$` after the type tag is skipped, and every
produced path starts at the character after the type tag. -/
theorem parse_fls_files_no_dollar (cfg : Cfg) (lines : List (List Char))
    (files : List (List Char × Int)) (h : parse_fls_files cfg lines = .ok files) :
    ∀ e ∈ files, e.1.head? ≠ some '$' := by
  induction lines generalizing files with
  | nil =>
    simp only [parse_fls_files, Except.ok.injEq] at h
    subst h; intro e he; cases he
  | cons l ls ih =>
    simp only [parse_fls_files] at h
    rcases hp : processFlsLine cfg l with e | o
    · simp [hp] at h
    · simp only [hp, exBind_ok] at h
      rcases o with _ | ent
      · rw [optElim_none] at h
        exact ih files h
      · rw [optElim_some] at h
        rcases hr : parse_fls_files cfg ls with e | rest
        · simp [hr] at h
        · simp only [hr, exMap_ok, Except.ok.injEq] at h
          subst h
          intro e he
          rcases List.mem_cons.mp he with h1 | h2
          · subst h1
            obtain ⟨nm, io⟩ := e
            exact processFlsLine_no_dollar hp
          · exact ih rest hr e h2

/-- Witness for C1 at a concrete input: the `$`-prefixed entry is dropped and
the surviving path does not begin with `$`. -/
theorem parse_fls_files_no_dollar_witness :
    ("a".toList, (5 : Int)).1.head? ≠ some '$' :=
  parse_fls_files_no_dollar ⟨true, true⟩
    ["0|/$OrphanFiles|5|d/drwx".toList, "0|/a|5|r/rrw".toList]
    [("a".toList, 5)] (by decide) _ (by decide)

/-! ### C10: symlink entries without the arrow marker lose their last character -/

/-- C10: For a file-listing line that passes every filter, is classified as a
symbolic link (first character of the fourth field is `l`) and whose name
field does not contain the arrow marker `" -> "` (`find` returns `-1`), the
produced path is the name field with both its first character (the type tag)
and its last character removed: `line[1][1:-1]`. -/
theorem parse_fls_symlink_no_arrow (cfg : Cfg) (l : List Char) (ls : List (List Char))
    (c : Char) (f3 f2 : List Char) (ino : Int)
    (hlen : 1 < (splitOnCh '|' l).length)
    (hc : pyIdx ((splitOnCh '|' l).getD 1 []) 1 = .ok c) (hcd : c ≠ '$')
    (hfs : ¬ (cfg.fix_subvols = true ∧ snapshotT <:+: (splitOnCh '|' l).getD 1 [] ∧
      0 < pyCount subvolumeT ((splitOnCh '|' l).getD 1 [])))
    (hib : ¬ (cfg.ignore_ext_backup = true ∧ extBackupT <:+: (splitOnCh '|' l).getD 1 []))
    (h3 : pyIdx (splitOnCh '|' l) 3 = .ok f3) (h30 : pyIdx f3 0 = .ok 'l')
    (harrow : pyFind arrowT ((splitOnCh '|' l).getD 1 []) = none)
    (h2 : pyIdx (splitOnCh '|' l) 2 = .ok f2) (hint : pyIntE f2 = .ok ino) :
    parse_fls_files cfg (l :: ls) =
      (parse_fls_files cfg ls).map
        (((((splitOnCh '|' l).getD 1 []).drop 1).dropLast, ino) :: ·) := by
  have hproc : processFlsLine cfg l =
      .ok (some ((((splitOnCh '|' l).getD 1 []).drop 1).dropLast, ino)) := by
    simp only [processFlsLine, if_pos hlen, hc, exBind_ok, if_neg hcd, if_neg hfs,
      if_neg hib, h3, h30, h2, hint, if_pos rfl]
    simp only [flsLinkName, harrow]
    rfl
  simp only [parse_fls_files, hproc, exBind_ok, optElim_some]

/-- Witness for C10 at a concrete input: the symlink name `/file_symlink`
comes back as `file_symlin`, its final `k` dropped. -/
theorem parse_fls_symlink_no_arrow_witness :
    parse_fls_files ⟨true, true⟩ ["0|/file_symlink|10|l/lrwx".toList]
      = .ok [("file_symlin".toList, 10)] := by
  have h := parse_fls_symlink_no_arrow ⟨true, true⟩ "0|/file_symlink|10|l/lrwx".toList []
    'f' "l/lrwx".toList "10".toList 10 (by decide) (by decide) (by decide) (by decide)
    (by decide) (by decide) (by decide) (by decide) (by decide) (by decide)
  rw [h]; decide

/-! ### C7: a non-integer inode field on a line passing the filters is an
error, not a skip -/

/-- The third field of a line exists but is not a valid integer. -/
def thirdFieldBad (l : List Char) : Prop :=
  2 < (splitOnCh '|' l).length ∧ pyInt? ((splitOnCh '|' l).getD 2 []) = none

instance (l : List Char) : Decidable (thirdFieldBad l) := by
  unfold thirdFieldBad; exact inferInstance

theorem processFlsLine_bad_inode {cfg : Cfg} {l : List Char}
    (hp : passesFlsFilters cfg l) (hb : thirdFieldBad l) :
    ∃ e, processFlsLine cfg l = .error e := by
  obtain ⟨hlen, hf1len, hnd, hfs, hib⟩ := hp
  obtain ⟨h2len, h2bad⟩ := hb
  have hc : pyIdx ((splitOnCh '|' l).getD 1 []) 1 =
      .ok (((splitOnCh '|' l).getD 1 []).get ⟨1, hf1len⟩) := by
    unfold pyIdx
    rw [dif_pos hf1len]
    rfl
  have hcd : ¬ (((splitOnCh '|' l).getD 1 []).get ⟨1, hf1len⟩ = '$') := by
    intro hx
    apply hnd
    rw [List.getElem?_eq_getElem hf1len]
    exact congrArg some ((List.get_eq_getElem _ _).symm.trans hx)
  simp only [processFlsLine, if_pos hlen, hc, exBind_ok, if_neg hcd, if_neg hfs, if_neg hib]
  rcases h3 : pyIdx (splitOnCh '|' l) 3 with e | f3
  · exact ⟨e, by simp [h3]⟩
  · simp only [h3, exBind_ok]
    rcases h30 : pyIdx f3 0 with e | c3
    · exact ⟨e, by simp [h30]⟩
    · simp only [h30, exBind_ok]
      have h2 : pyIdx (splitOnCh '|' l) 2 = .ok ((splitOnCh '|' l).getD 2 []) := by
        unfold pyIdx
        rw [dif_pos h2len]
        rw [List.getD_eq_getElem _ _ h2len]
      simp only [h2, exBind_ok]
      refine ⟨.parseError, ?_⟩
      simp only [pyIntE, h2bad, exBind_error]

/-- C7: If any line of the input passes all the filters of `parse_fls_files`
(at least two fields, name not `$`-tagged after the type tag, not excluded by
the snapshot/subvolume or `ext2_saved` filters) but its third field is not a
valid integer, the whole parse raises an exception — the line is not silently
skipped and no list is returned. -/
theorem parse_fls_bad_inode_errors (cfg : Cfg) (lines : List (List Char))
    (h : ∃ l ∈ lines, passesFlsFilters cfg l ∧ thirdFieldBad l) :
    ∃ e, parse_fls_files cfg lines = .error e := by
  induction lines with
  | nil => obtain ⟨l, hl, -⟩ := h; cases hl
  | cons l ls ih =>
    obtain ⟨l', hl', hpass, hbad⟩ := h
    rcases List.mem_cons.mp hl' with h1 | h2
    · subst h1
      obtain ⟨e, he⟩ := processFlsLine_bad_inode hpass hbad
      exact ⟨e, by simp only [parse_fls_files, he, exBind_error]⟩
    · rcases hp : processFlsLine cfg l with e | o
      · exact ⟨e, by simp only [parse_fls_files, hp, exBind_error]⟩
      · obtain ⟨e, he⟩ := ih ⟨l', h2, hpass, hbad⟩
        rcases o with _ | ent
        · exact ⟨e, by simp only [parse_fls_files, hp, exBind_ok, optElim_none, he]⟩
        · exact ⟨e, by
            simp only [parse_fls_files, hp, exBind_ok, optElim_some, he, exMap_error]⟩

/-- Witness for C7 at a concrete input: a line whose inode field is `bad`. -/
theorem parse_fls_bad_inode_errors_witness :
    ∃ e, parse_fls_files ⟨true, true⟩ ["0|/a|bad|r/rrw".toList] = .error e :=
  parse_fls_bad_inode_errors ⟨true, true⟩ ["0|/a|bad|r/rrw".toList]
    ⟨"0|/a|bad|r/rrw".toList, by decide, by decide, by decide⟩

/-! ### C8: path uniqueness is not enforced by the parsers -/

/-- Counterexample to C8: two identical raw lines produce two entries with
the same path, returned without any error, in both `parse_fls_files` and
`parse_stat`; duplicate raw entries for one path are neither filtered nor a
parse error. -/
theorem parse_duplicate_paths_cex :
    parse_fls_files ⟨true, true⟩ ["0|/a|5|r/rrw".toList, "0|/a|5|r/rrw".toList]
        = .ok [("a".toList, 5), ("a".toList, 5)] ∧
      parse_stat ⟨true, true⟩ ["b|2".toList, "b|2".toList] none []
        = .ok [[.text "b".toList, .int 2], [.text "b".toList, .int 2]] := by
  decide

/-- C8 (amended): neither parser enforces path uniqueness — a duplicated raw
line yields its entry twice, with no parse error; deduplication happens only
later, when the caller collects rows into Python sets. -/
theorem parse_duplicates_preserved (cfg : Cfg) (l m : List Char)
    (mp : Option (List Char)) (cwd : List Char) (ent : List Char × Int) (row : List Field)
    (hf : parse_fls_files cfg [l] = .ok [ent])
    (hs : parse_stat cfg [m] mp cwd = .ok [row]) :
    parse_fls_files cfg [l, l] = .ok [ent, ent] ∧
      parse_stat cfg [m, m] mp cwd = .ok [row, row] := by
  constructor
  · rcases hp : processFlsLine cfg l with e | o
    · rw [parse_fls_files, hp] at hf; cases hf
    · rcases o with _ | ent'
      · rw [parse_fls_files, hp] at hf
        simp only [exBind_ok, optElim_none, parse_fls_files] at hf
        cases hf
      · rw [parse_fls_files, hp] at hf
        simp only [exBind_ok, optElim_some, parse_fls_files, exMap_ok,
          Except.ok.injEq, List.cons.injEq, and_true] at hf
        subst hf
        simp only [parse_fls_files, hp, exBind_ok, optElim_some, exMap_ok]
  · rcases hrow : statLineRow cfg m with - | r0
    · unfold parse_stat at hs
      simp only [List.filterMap_cons, hrow, List.filterMap_nil] at hs
      cases mp with
      | none => cases hs
      | some m' => simp only [relpathRows] at hs; cases hs
    · unfold parse_stat at hs ⊢
      simp only [List.filterMap_cons, hrow, List.filterMap_nil] at hs ⊢
      cases mp with
      | none =>
        simp only [Except.ok.injEq, List.cons.injEq, and_true] at hs
        subst hs; rfl
      | some m' =>
        rcases hrp : relpathRow cwd m' r0 with e | row'
        · simp only [relpathRows, hrp, exBind_error] at hs; cases hs
        · simp only [relpathRows, hrp, exBind_ok, exMap_ok, Except.ok.injEq,
            List.cons.injEq, and_true] at hs
          subst hs
          simp only [relpathRows, hrp, exBind_ok, exMap_ok]

/-- Witness for the amended C8 at concrete inputs. -/
theorem parse_duplicates_preserved_witness :
    parse_fls_files ⟨true, true⟩ ["0|/a|5|r/rrw".toList, "0|/a|5|r/rrw".toList]
        = .ok [("a".toList, 5), ("a".toList, 5)] ∧
      parse_stat ⟨true, true⟩ ["b|2".toList, "b|2".toList] none []
        = .ok [[.text "b".toList, .int 2], [.text "b".toList, .int 2]] :=
  parse_duplicates_preserved ⟨true, true⟩ "0|/a|5|r/rrw".toList "b|2".toList none []
    ("a".toList, 5) [.text "b".toList, .int 2] (by decide) (by decide)

/-! ### C9: duplicate inode keys in `parse_ils` are last-write-wins -/

theorem processIlsLine_ok {l : List Char} {o : Option (Field × List Field)}
    (h : processIlsLine l = .ok o) : o = ilsAccepted l := by
  simp only [processIlsLine] at h
  simp only [ilsAccepted]
  split at h
  case isTrue hcond =>
    rcases h8 : pyIdx (splitOnCh '|' l) 8 with e | f8
    · rw [h8] at h; cases h
    · rw [h8, exBind_ok] at h
      have h8' := pyIdx_ok_iff.mp h8
      have hlen : 8 < (splitOnCh '|' l).length := by
        by_contra hx
        rw [List.getElem?_eq_none (by omega)] at h8'
        cases h8'
      have hgd : (splitOnCh '|' l).getD 8 [] = f8 := by
        rw [List.getD_eq_getElem _ _ hlen]
        exact Option.some.inj ((List.getElem?_eq_getElem hlen).symm.trans h8')
      split at h
      case isTrue hz =>
        cases h
        rw [if_neg]
        intro hall
        exact hall.2.2.2 (hgd ▸ hz)
      case isFalse hz =>
        cases h
        rw [if_pos ⟨hcond.1, hcond.2, hlen, hgd ▸ hz⟩]
  case isFalse hcond =>
    cases h
    rw [if_neg]
    intro hall
    exact hcond ⟨hall.1, hall.2.1⟩

theorem dictLookup_dictInsert (k0 k : Field) (v0 : List Field)
    (d : List (Field × List Field)) :
    dictLookup k (dictInsert k0 v0 d) = if k0 = k then some v0 else dictLookup k d := by
  induction d with
  | nil => simp [dictInsert, dictLookup]
  | cons kv d ih =>
    obtain ⟨k', v'⟩ := kv
    simp only [dictInsert]
    by_cases hk : k' = k0
    · rw [if_pos hk]
      subst hk
      simp only [dictLookup]
      by_cases h1 : k' = k
      · rw [if_pos h1, if_pos h1]
      · rw [if_neg h1, if_neg h1, if_neg h1]
    · rw [if_neg hk]
      simp only [dictLookup, ih]
      by_cases h1 : k' = k <;> by_cases h2 : k0 = k
      · exact absurd (h1.trans h2.symm) hk
      · simp [h1, h2]
      · simp [h1, h2]
      · simp [h1, h2]

theorem dictInsert_keys (k0 : Field) (v0 : List Field) (d : List (Field × List Field)) :
    (dictInsert k0 v0 d).map Prod.fst = d.map Prod.fst ∨
      (k0 ∉ d.map Prod.fst ∧
        (dictInsert k0 v0 d).map Prod.fst = d.map Prod.fst ++ [k0]) := by
  induction d with
  | nil => exact Or.inr ⟨by simp, by simp [dictInsert]⟩
  | cons kv d ih =>
    obtain ⟨k', v'⟩ := kv
    by_cases hk : k' = k0
    · exact Or.inl (by simp [dictInsert, hk])
    · rcases ih with h1 | ⟨hnotin, h2⟩
      · exact Or.inl (by simp [dictInsert, hk, h1])
      · refine Or.inr ⟨?_, by simp [dictInsert, hk, h2]⟩
        simp only [List.map_cons, List.mem_cons]
        rintro (hx | hx)
        · exact hk hx.symm
        · exact hnotin hx

theorem dictInsert_nodup {k0 : Field} {v0 : List Field} {d : List (Field × List Field)}
    (h : (d.map Prod.fst).Nodup) : ((dictInsert k0 v0 d).map Prod.fst).Nodup := by
  rcases dictInsert_keys k0 v0 d with h1 | ⟨hnotin, h2⟩
  · rw [h1]; exact h
  · rw [h2, List.nodup_append]
    refine ⟨h, List.nodup_singleton _, ?_⟩
    intro a ha hb
    rw [List.mem_singleton] at hb
    exact hnotin (hb ▸ ha)

theorem parse_ils_go_spec {ls : List (List Char)} :
    ∀ {d d' : List (Field × List Field)}, parse_ils_go d ls = .ok d' →
      ((d.map Prod.fst).Nodup → (d'.map Prod.fst).Nodup) ∧
      ∀ k, dictLookup k d' =
        ((lastAssoc k (ls.filterMap ilsAccepted)).orElse (fun _ => dictLookup k d)) := by
  induction ls with
  | nil =>
    intro d d' h
    simp only [parse_ils_go, Except.ok.injEq] at h
    subst h
    exact ⟨id, fun k => by simp [lastAssoc, Option.orElse]⟩
  | cons l ls ih =>
    intro d d' h
    simp only [parse_ils_go] at h
    rcases hp : processIlsLine l with e | o
    · rw [hp] at h; cases h
    · rw [hp, exBind_ok] at h
      have ho := processIlsLine_ok hp
      rcases o with _ | kv
      · rw [optElim_none] at h
        obtain ⟨hnd, hlk⟩ := ih h
        refine ⟨hnd, fun k => ?_⟩
        rw [hlk k, List.filterMap_cons, ← ho]
      · rw [optElim_some] at h
        obtain ⟨hnd, hlk⟩ := ih h
        constructor
        · intro hd
          exact hnd (dictInsert_nodup hd)
        · intro k
          rw [hlk k, List.filterMap_cons, ← ho, dictLookup_dictInsert]
          rcases hla : lastAssoc k (ls.filterMap ilsAccepted) with - | r
          · simp only [lastAssoc, hla]
            by_cases hk : kv.1 = k
            · simp [hk, Option.orElse]
            · simp [hk, Option.orElse]
          · simp only [lastAssoc, hla]
            simp [Option.orElse]

/-- C9: `parse_ils` is last-write-wins on duplicate inode keys: on success,
looking up any key in the resulting dictionary returns the attribute tuple
contributed by the last accepted input line carrying that key (`lastAssoc` of
the accepted key/value pairs in input order), and the dictionary's keys are
distinct, so earlier tuples for a duplicated key are absent from the result. -/
theorem parse_ils_last_write_wins (lines : List (List Char))
    (d : List (Field × List Field)) (h : parse_ils lines = .ok d) :
    ((d.map Prod.fst).Nodup) ∧
      ∀ k, dictLookup k d = lastAssoc k (lines.filterMap ilsAccepted) := by
  obtain ⟨hnd, hlk⟩ := @parse_ils_go_spec lines [] d h
  refine ⟨hnd (by simp), fun k => ?_⟩
  rw [hlk k]
  rcases hla : lastAssoc k (lines.filterMap ilsAccepted) with - | r
  · simp [Option.orElse, dictLookup]
  · simp [Option.orElse]

/-- Witness for C9 at a concrete input: two accepted lines with inode key 5;
the lookup returns the tuple of the second line. -/
theorem parse_ils_last_write_wins_witness :
    dictLookup (.int 5)
        [(Field.int 5, [Field.text "x".toList, Field.text "b".toList, Field.text "c".toList,
          Field.text "d".toList, Field.text "e".toList, Field.text "f".toList,
          Field.text "g".toList, Field.int 2])] =
      lastAssoc (.int 5)
        ((["5|a|b|c|d|e|f|g|1".toList, "5|x|b|c|d|e|f|g|2".toList]).filterMap ilsAccepted) :=
  (parse_ils_last_write_wins
    ["5|a|b|c|d|e|f|g|1".toList, "5|x|b|c|d|e|f|g|2".toList]
    [(Field.int 5, [Field.text "x".toList, Field.text "b".toList, Field.text "c".toList,
      Field.text "d".toList, Field.text "e".toList, Field.text "f".toList,
      Field.text "g".toList, Field.int 2])] (by decide)).2 (.int 5)

/-! ### C4: a file-listing inode missing from the inode listing raises
`KeyError` -/

/-- Counterexample to C4: the merge step raises `KeyError(77)` for the entry
`("file_a", 77)` when the inode listing is empty, and Python displays a
`KeyError(k)` as `str(k)` — the message `77` names the missing inode but does
not contain the entry's path, contrary to the claim that the failure message
names the inode and its path. -/
theorem merge_missing_inode_message_cex :
    mergeTsk [] [("file_a".toList, 77)] = .error (.keyError 77) ∧
      intStr 77 = "77".toList ∧ ¬ "file_a".toList <:+: intStr 77 := by
  decide

/-- C4 (amended): a file-listing entry whose inode number is absent from the
inode-listing dictionary makes the merge step raise `KeyError` carrying some
missing inode of the file listing — the entry is not silently dropped and no
merged list is returned; the error names the inode but not the path. -/
theorem merge_missing_inode_error (inodes : List (Field × List Field))
    (files : List (List Char × Int))
    (h : ∃ pi ∈ files, dictLookup (.int pi.2) inodes = none) :
    ∃ k, mergeTsk inodes files = .error (.keyError k) ∧
      (∃ p, (p, k) ∈ files) ∧ dictLookup (.int k) inodes = none := by
  induction files with
  | nil => obtain ⟨pi, hpi, -⟩ := h; cases hpi
  | cons f fs ih =>
    obtain ⟨p, i⟩ := f
    rcases hl : dictLookup (.int i) inodes with - | t
    · exact ⟨i, by simp only [mergeTsk, hl, optElim_none],
        ⟨p, List.mem_cons_self _ _⟩, hl⟩
    · obtain ⟨pi, hpi, hnone⟩ := h
      rcases List.mem_cons.mp hpi with h1 | h2
      · rw [h1] at hnone
        rw [hnone] at hl
        cases hl
      · obtain ⟨k, hk, ⟨p', hp'⟩, hnone'⟩ := ih ⟨pi, h2, hnone⟩
        exact ⟨k, by simp only [mergeTsk, hl, optElim_some, hk, exMap_error],
          ⟨p', List.mem_cons_of_mem _ hp'⟩, hnone'⟩

/-- Witness for the amended C4 at the concrete scenario of the spec: inode 77
with no key 77 in the inode listing. -/
theorem merge_missing_inode_error_witness :
    ∃ k, mergeTsk [] [("file_a".toList, (77 : Int))] = .error (.keyError k) ∧
      (∃ p, (p, k) ∈ [("file_a".toList, (77 : Int))]) ∧
      dictLookup (.int k) ([] : List (Field × List Field)) = none :=
  merge_missing_inode_error [] [("file_a".toList, 77)]
    ⟨("file_a".toList, 77), by decide, by decide⟩

/-! ### C3: a failed `istat` buffer crashes the inode comparison -/

/-- Counterexample to C3: when the captured `istat` output for a record is
empty (the command failed and `e.output` is `b''`), parsing `istat[2]` raises
IndexError and the whole comparison aborts with the exception — no mismatched
record is produced, contrary to the claim that the comparison never crashes. -/
theorem istat_empty_output_crash_cex :
    inodeCheckTsk (fun _ => []) [("file".toList, 5)] = .error .indexError := by
  decide

/-- C3 (amended): the captured output of the inode-inspection command is
parsed as third line (index 2), third space-separated field, `int`-converted;
when every record's captured buffer parses this way, the comparison builds
`(path, parsed-inode)` records and proceeds — a wrong parsed value then shows
up as a mismatched record; a buffer that fails to parse instead aborts the
comparison with the exception (see the counterexample). -/
theorem inode_check_all_parsed_ok (out : Int → List (List Char))
    (rows : List (List Char × Int))
    (h : ∀ r ∈ rows, ∃ v, istatInode (out r.2) = .ok v) :
    ∃ l, inodeCheckTsk out rows = .ok l ∧
      ∀ p n, (p, n) ∈ rows → ∃ v, istatInode (out n) = .ok v ∧ (p, v) ∈ l := by
  induction rows with
  | nil =>
    refine ⟨[], rfl, ?_⟩
    intro p n h'
    cases h'
  | cons r rs ih =>
    obtain ⟨p0, n0⟩ := r
    obtain ⟨v0, hv0⟩ := h (p0, n0) (List.mem_cons_self _ _)
    obtain ⟨l', hl', hmem⟩ := ih (fun r hr => h r (List.mem_cons_of_mem _ hr))
    refine ⟨(p0, v0) :: l', ?_, ?_⟩
    · simp only [inodeCheckTsk, hv0, exBind_ok, hl', exMap_ok]
    · intro p n hpn
      rcases List.mem_cons.mp hpn with h1 | h2
      · injection h1 with hp hn
        subst hp; subst hn
        exact ⟨v0, hv0, List.mem_cons_self _ _⟩
      · obtain ⟨v, hv, hvl⟩ := hmem p n h2
        exact ⟨v, hv, List.mem_cons_of_mem _ hvl⟩

/-- Witness for the amended C3 at a concrete input whose third line parses. -/
theorem inode_check_all_parsed_ok_witness :
    ∃ l, inodeCheckTsk (fun _ => [[], [], "a b 42".toList]) [("f".toList, (7 : Int))]
        = .ok l ∧
      ∀ p n, (p, n) ∈ [("f".toList, (7 : Int))] →
        ∃ v, istatInode ((fun _ => [[], [], "a b 42".toList]) n) = .ok v ∧ (p, v) ∈ l :=
  inode_check_all_parsed_ok (fun _ => [[], [], "a b 42".toList]) [("f".toList, 7)]
    (by
      intro r hr
      rw [List.mem_singleton] at hr
      subst hr
      exact ⟨42, by decide⟩)

/-! ### C5: the `fix_size` override zeroes pseudo-entry sizes on the stat
side only -/

/-- C5: With `fix_size` enabled, the OS-derived size pair of a record whose
final path component contains a `directory`, `subvolume` or `snapshot` tag is
`(path, 0)` even when the reported size is non-zero; a record without such a
tag keeps its reported size whatever the switch; and the forensic-side pair
is always `(path, reported-size)` — the override is applied only to the
OS-derived set. -/
theorem size_override_stat_only (fix_size : Bool) (row : List Field)
    (p : List Char) (v : Field)
    (h0 : pyIdx row 0 = .ok (.text p)) (h11 : pyIdx row 11 = .ok v) :
    sizeCheckStat fix_size [row]
        = .ok [(.text p, if fix_size = true ∧ taggedLast p then Field.int 0 else v)] ∧
      sizeCheckTsk [row] = .ok [(.text p, v)] := by
  constructor
  · simp only [sizeCheckStat, sizePairStat, h11, exBind_ok]
    cases fix_size with
    | false =>
      simp only [Bool.false_eq_true, if_false, h0, exBind_ok, exMap_ok]
      simp
    | true =>
      simp only [if_true, h0, exBind_ok, fieldElim_text, exMap_ok]
      by_cases ht : taggedLast p
      · simp [ht]
      · simp [ht]
  · simp only [sizeCheckTsk, sizePairTsk, h0, h11, exBind_ok, exMap_ok]

/-- Witness for C5 at a concrete input: a 12-field row for path `a/snapshot1`
with reported size 5 comes back with size 0 on the stat side under the
switch, and with size 5 on the forensic side. -/
theorem size_override_stat_only_witness :
    sizeCheckStat true [[Field.text "a/snapshot1".toList, Field.int 0, Field.int 0,
        Field.int 0, Field.int 0, Field.int 0, Field.int 0, Field.int 0, Field.int 0,
        Field.int 0, Field.int 0, Field.int 5]]
        = .ok [(.text "a/snapshot1".toList,
            if true = true ∧ taggedLast "a/snapshot1".toList then Field.int 0
            else Field.int 5)] ∧
      sizeCheckTsk [[Field.text "a/snapshot1".toList, Field.int 0, Field.int 0,
        Field.int 0, Field.int 0, Field.int 0, Field.int 0, Field.int 0, Field.int 0,
        Field.int 0, Field.int 0, Field.int 5]]
        = .ok [(.text "a/snapshot1".toList, Field.int 5)] :=
  size_override_stat_only true
    [Field.text "a/snapshot1".toList, Field.int 0, Field.int 0, Field.int 0,
      Field.int 0, Field.int 0, Field.int 0, Field.int 0, Field.int 0, Field.int 0,
      Field.int 0, Field.int 5]
    "a/snapshot1".toList (Field.int 5) (by decide) (by decide)

/-! ### C6: the manifest round-trip of `test_filedata` -/

/-- Counterexample to C6: with the manifest line exactly as the claim states
it — hash, two spaces, `empty_file` (the `md5sum` textual convention) — the
parsed file name keeps the second separator space (`" empty_file"`), the
recovered-tree side produces `"empty_file"`, and the two sets differ: the
content verifier fails on the claimed input. -/
theorem manifest_two_space_fails_cex :
    parseManifest ["d41d8cd98f00b204e9800998ecf8427e  empty_file\n".toList]
        = [(" empty_file".toList, "d41d8cd98f00b204e9800998ecf8427e".toList)] ∧
      recoveredSet ⟨true, true⟩ "/w".toList ".files".toList
          [(".files".toList, "empty_file".toList,
            "d41d8cd98f00b204e9800998ecf8427e".toList)]
        = .ok [("empty_file".toList, "d41d8cd98f00b204e9800998ecf8427e".toList)] ∧
      seteq [(" empty_file".toList, "d41d8cd98f00b204e9800998ecf8427e".toList)]
        [("empty_file".toList, "d41d8cd98f00b204e9800998ecf8427e".toList)] = false := by
  decide

/-- C6 (amended): with the manifest line in the single-space form the image
factory actually writes (`hash + " " + relative_path`), a recovered tree
holding exactly one zero-byte regular file at `empty_file` (md5
`d41d8cd98f00b204e9800998ecf8427e`) makes the manifest-derived set equal the
tree-derived set, and the content verifier passes; the two-space form of the
claim makes it fail (see the counterexample). -/
theorem manifest_single_space_roundtrip :
    parseManifest ["d41d8cd98f00b204e9800998ecf8427e empty_file\n".toList]
        = [("empty_file".toList, "d41d8cd98f00b204e9800998ecf8427e".toList)] ∧
      recoveredSet ⟨true, true⟩ "/w".toList ".files".toList
          [(".files".toList, "empty_file".toList,
            "d41d8cd98f00b204e9800998ecf8427e".toList)]
        = .ok [("empty_file".toList, "d41d8cd98f00b204e9800998ecf8427e".toList)] ∧
      seteq [("empty_file".toList, "d41d8cd98f00b204e9800998ecf8427e".toList)]
        [("empty_file".toList, "d41d8cd98f00b204e9800998ecf8427e".toList)] = true := by
  decide

/-! ### C2: the snapshot/subvolume filter of `parse_stat` -/

theorem pyIntOrText_text {f0 s : List Char} (h : pyIntOrText f0 = .text s) : s = f0 := by
  unfold pyIntOrText at h
  split at h
  · cases h
  · exact (Field.text.inj h).symm

theorem statLineRow_some {cfg : Cfg} {l : List Char} {row : List Field}
    (h : statLineRow cfg l = some row) :
    row = (splitOnCh '|' l).map pyIntOrText ∧
      ¬ (cfg.fix_subvols = true ∧ snapshotT <:+: (splitOnCh '|' l).headD [] ∧
        0 < pyCount subvolumeT ((splitOnCh '|' l).headD [])) := by
  simp only [statLineRow] at h
  split at h
  · cases h
  · rename_i hfilter
    split at h
    · cases h
    · exact ⟨(Option.some.inj h).symm, hfilter⟩

theorem relpathRows_mem {cwd m : List Char} :
    ∀ {rows0 rows : List (List Field)}, relpathRows cwd m rows0 = .ok rows →
      ∀ row ∈ rows, ∃ r0 ∈ rows0, relpathRow cwd m r0 = .ok row := by
  intro rows0
  induction rows0 with
  | nil =>
    intro rows h row hr
    simp only [relpathRows, Except.ok.injEq] at h
    subst h
    cases hr
  | cons r0 rs ih =>
    intro rows h row hr
    simp only [relpathRows] at h
    rcases hrp : relpathRow cwd m r0 with e | row2
    · rw [hrp] at h; cases h
    · rw [hrp, exBind_ok] at h
      rcases hrest : relpathRows cwd m rs with e | rest
      · rw [hrest] at h; cases h
      · rw [hrest, exMap_ok] at h
        have h2 := Except.ok.inj h
        subst h2
        rcases List.mem_cons.mp hr with h1 | h3
        · exact ⟨r0, List.mem_cons_self _ _, by rw [hrp, h1]⟩
        · obtain ⟨r1, hr1, hrp1⟩ := ih hrest row h3
          exact ⟨r1, List.mem_cons_of_mem _ hr1, hrp1⟩

/-- C2 (amended): with the collapse-snapshot-duplicates switch enabled, no
row returned by `parse_stat` has a path containing both `"snapshot"` and
`"subvolume"`, provided the raw path fields are absolute (as the `stat`
command over the absolute mount path produces) or no mount path is given.
(For a relative raw path, `os.path.relpath` consults the working directory,
which can reintroduce the substrings — see the counterexample.) -/
theorem parse_stat_abs_no_snapshot_subvolume (cfg : Cfg) (lines : List (List Char))
    (mpath : Option (List Char)) (cwd : List Char) (rows : List (List Field))
    (hfix : cfg.fix_subvols = true)
    (habs : mpath = none ∨ ∀ l ∈ lines, isAbs ((splitOnCh '|' l).headD []) = true)
    (h : parse_stat cfg lines mpath cwd = .ok rows) :
    ∀ row ∈ rows, ∀ s, row.head? = some (.text s) →
      ¬ (snapshotT <:+: s ∧ subvolumeT <:+: s) := by
  intro row hrow s hs hboth
  obtain ⟨hsn, hsub⟩ := hboth
  simp only [parse_stat] at h
  cases mpath with
  | none =>
    have h2 := Except.ok.inj h
    subst h2
    obtain ⟨l, hl, hrowl⟩ := List.mem_filterMap.mp hrow
    obtain ⟨hroweq, hfilter⟩ := statLineRow_some hrowl
    obtain ⟨⟨f, rtl, hfr, -⟩, -⟩ := splitOnCh_spec '|' l
    rw [hroweq, hfr] at hs
    simp only [List.map_cons, List.head?_cons, Option.some.injEq] at hs
    have hsf : s = f := pyIntOrText_text hs
    subst hsf
    refine hfilter ⟨hfix, ?_, ?_⟩
    · rw [hfr]; simpa using hsn
    · rw [hfr]
      simp only [List.headD_cons]
      exact pyCount_pos.mpr hsub
  | some m =>
    rcases habs with habs1 | habs2
    · cases habs1
    · obtain ⟨r0, hr0, hrp⟩ := relpathRows_mem h row hrow
      obtain ⟨l, hl, hrowl⟩ := List.mem_filterMap.mp hr0
      obtain ⟨hroweq, hfilter⟩ := statLineRow_some hrowl
      obtain ⟨⟨f, rtl, hfr, -⟩, -⟩ := splitOnCh_spec '|' l
      rw [hroweq, hfr] at hrp
      simp only [List.map_cons, relpathRow] at hrp
      rcases hpi : pyIntOrText f with n | s0
      · rw [hpi] at hrp
        simp only [fieldElim_int] at hrp
        cases hrp
      · rw [hpi] at hrp
        simp only [fieldElim_text] at hrp
        rcases hrel : pyRelpath cwd s0 m with e | rr
        · rw [hrel] at hrp; cases hrp
        · rw [hrel, exMap_ok] at hrp
          have hrp2 := Except.ok.inj hrp
          rw [← hrp2] at hs
          simp only [List.head?_cons, Option.some.injEq, Field.text.injEq] at hs
          subst hs
          have hs0f : s0 = f := pyIntOrText_text hpi
          subst hs0f
          have habsf : isAbs s0 = true := by
            have := habs2 l hl
            rw [hfr] at this
            simpa using this
          have hsn2 : snapshotT <:+: s0 :=
            relpath_within habsf hrel (by decide) (by decide) hsn
          have hsub2 : subvolumeT <:+: s0 :=
            relpath_within habsf hrel (by decide) (by decide) hsub
          refine hfilter ⟨hfix, ?_, ?_⟩
          · rw [hfr]; simpa using hsn2
          · rw [hfr]
            simp only [List.headD_cons]
            exact pyCount_pos.mpr hsub2

/-- Counterexample to C2 as universally stated: a relative raw path field
(`a`) passes the filter, but `os.path.relpath` consults the working
directory; with the working directory `/snapshotsubvolume`, the returned path
`../snapshotsubvolume/a` contains both `"snapshot"` and `"subvolume"`. -/
theorem parse_stat_snapshot_cwd_cex :
    parse_stat ⟨true, true⟩ ["a|1".toList] (some "/m".toList)
        "/snapshotsubvolume".toList
        = .ok [[.text "../snapshotsubvolume/a".toList, .int 1]] ∧
      snapshotT <:+: "../snapshotsubvolume/a".toList ∧
      subvolumeT <:+: "../snapshotsubvolume/a".toList := by
  decide

/-- Witness for the amended C2 at a concrete absolute input. -/
theorem parse_stat_abs_no_snapshot_subvolume_witness :
    ¬ (snapshotT <:+: "a".toList ∧ subvolumeT <:+: "a".toList) :=
  parse_stat_abs_no_snapshot_subvolume ⟨true, true⟩ ["/mnt/loop/a|1".toList]
    (some "/mnt/loop".toList) "/w".toList [[.text "a".toList, .int 1]]
    rfl (Or.inr (by decide)) (by decide)
    [.text "a".toList, .int 1] (by decide) "a".toList (by decide)

end TP
